import Mathlib

/-!
Verification of the topic/user reconciliation logic of the
`terraform-provider-yandex-v2` resource handlers
(`yandex/resource_yandex_mdb_kafka_cluster.go` and the VPC address handler).

The Go code is shallowly embedded: pure helpers become Lean functions on
`List`-based models of the protobuf messages, the stateful reconciliation
phases become functions that return the list of remote calls they issue
together with their outcome, and remote-call results are supplied by
explicit oracles (a sequential Go function observes each call's result
before issuing the next one, which the functional embedding mirrors by
threading the oracle through the call list in order).
-/

/-- Model of `kafka.Topic` (remote topic); only the fields the verified
code inspects are kept (`Name` drives all diffing and sorting). -/
structure KTopic where
  name : String
  partitions : Int
  replicationFactor : Int
deriving DecidableEq, Repr

/-- Model of `kafka.TopicSpec` (declared topic). -/
structure KTopicSpec where
  name : String
  partitions : Int
  replicationFactor : Int
deriving DecidableEq, Repr

/-- The simultaneous assignment `topics[i], topics[j] = topics[j], topics[i]`
from `sortKafkaTopics`; out-of-range indices leave the list unchanged
(the Go loop bounds guarantee in-range use). -/
def listSwap (l : List α) (i j : Nat) : List α :=
  match l[i]?, l[j]?  with
  | some a, some b => (l.set i b).set j a
  | _, _ => l

/-- Index of the first element satisfying `p`, if any. -/
def firstIdx (p : α → Bool) : List α → Option Nat
  | [] => none
  | a :: as => if p a then some 0 else (firstIdx p as).map (· + 1)

/-- One iteration of the outer loop of `sortKafkaTopics`: scan
`j = i+1, …, len(topics)-1` for the first remote topic named `n` and swap
it into position `i` (the Go `break` stops at the first match). -/
def sortStep (topics : List KTopic) (i : Nat) (n : String) : List KTopic :=
  match firstIdx (fun t => t.name == n) (topics.drop (i + 1)) with
  | some k => listSwap topics i (i + 1 + k)
  | none => topics

/-- The outer `for i, spec := range specs` loop of `sortKafkaTopics`. -/
def sortKafkaTopicsAux : List KTopic → List KTopicSpec → Nat → List KTopic
  | topics, [], _ => topics
  | topics, s :: rest, i => sortKafkaTopicsAux (sortStep topics i s.name) rest (i + 1)

/-- Embedding of `sortKafkaTopics` (file `resource_yandex_mdb_kafka_cluster.go`,
lines 1042–1051): reorder the remote `topics` in place, aligning them
with the declared `specs` by name. -/
def sortKafkaTopics (topics : List KTopic) (specs : List KTopicSpec) : List KTopic :=
  sortKafkaTopicsAux topics specs 0

theorem cons_set_perm {α : Type} :
    ∀ (xs : List α) (k : Nat) (x b : α), xs[k]? = some b →
      (b :: xs.set k x).Perm (x :: xs) := by
  intro xs
  induction xs with
  | nil => intro k x b h; simp at h
  | cons y ys ih =>
    intro k x b h
    cases k with
    | zero =>
      simp only [List.getElem?_cons_zero, Option.some.injEq] at h
      subst h
      simpa using List.Perm.swap x y ys
    | succ k' =>
      simp only [List.getElem?_cons_succ] at h
      have h1 : (b :: y :: ys.set k' x).Perm (y :: b :: ys.set k' x) :=
        List.Perm.swap y b _
      have h2 : (y :: b :: ys.set k' x).Perm (y :: x :: ys) :=
        (ih k' x b h).cons y
      have h3 : (y :: x :: ys).Perm (x :: y :: ys) := List.Perm.swap x y ys
      simpa using (h1.trans h2).trans h3

theorem set_set_swap_perm {α : Type} :
    ∀ (l : List α) (i j : Nat) (a b : α), l[i]? = some a → l[j]? = some b →
      ((l.set i b).set j a).Perm l := by
  intro l
  induction l with
  | nil => intro i j a b hi _; simp at hi
  | cons x xs ih =>
    intro i j a b hi hj
    cases i with
    | zero =>
      simp only [List.getElem?_cons_zero, Option.some.injEq] at hi
      subst hi
      cases j with
      | zero =>
        simp only [List.getElem?_cons_zero, Option.some.injEq] at hj
        subst hj
        simp
      | succ j' =>
        simp only [List.getElem?_cons_succ] at hj
        simpa using cons_set_perm xs j' x b hj
    | succ i' =>
      simp only [List.getElem?_cons_succ] at hi
      cases j with
      | zero =>
        simp only [List.getElem?_cons_zero, Option.some.injEq] at hj
        subst hj
        simpa using cons_set_perm xs i' x a hi
      | succ j' =>
        simp only [List.getElem?_cons_succ] at hj
        simpa using (ih i' j' a b hi hj).cons x

theorem listSwap_perm {α : Type} (l : List α) (i j : Nat) :
    (listSwap l i j).Perm l := by
  unfold listSwap
  cases hi : l[i]? with
  | none => simp
  | some a =>
    cases hj : l[j]? with
    | none => simp
    | some b => simpa using set_set_swap_perm l i j a b hi hj

theorem sortStep_perm (topics : List KTopic) (i : Nat) (n : String) :
    (sortStep topics i n).Perm topics := by
  unfold sortStep
  cases firstIdx (fun t => t.name == n) (topics.drop (i + 1)) with
  | none => simp
  | some k => simpa using listSwap_perm topics i (i + 1 + k)

theorem sortKafkaTopicsAux_perm :
    ∀ (specs : List KTopicSpec) (topics : List KTopic) (i : Nat),
      (sortKafkaTopicsAux topics specs i).Perm topics := by
  intro specs
  induction specs with
  | nil => intro topics i; simp [sortKafkaTopicsAux]
  | cons s rest ih =>
    intro topics i
    exact (ih (sortStep topics i s.name) (i + 1)).trans (sortStep_perm topics i s.name)

/-- C10: `sortKafkaTopics` returns a permutation of its input remote topic
list: it only ever swaps two in-range elements, so no topic is added,
removed or modified, whatever the spec list is. -/
theorem sortKafkaTopics_perm (topics : List KTopic) (specs : List KTopicSpec) :
    (sortKafkaTopics topics specs).Perm topics :=
  sortKafkaTopicsAux_perm specs topics 0

theorem firstIdx_eq_none {α : Type} (p : α → Bool) :
    ∀ l : List α, firstIdx p l = none ↔ ∀ a ∈ l, p a = false := by
  intro l
  induction l with
  | nil => simp [firstIdx]
  | cons a as ih =>
    by_cases hp : p a = true
    · simp [firstIdx, hp]
    · simp only [Bool.not_eq_true] at hp
      simp [firstIdx, hp, ih]

theorem firstIdx_eq_some {α : Type} (p : α → Bool) :
    ∀ (l : List α) (k : Nat), firstIdx p l = some k →
      ∃ h : k < l.length, p (l.get ⟨k, h⟩) = true := by
  intro l
  induction l with
  | nil => intro k h; simp [firstIdx] at h
  | cons a as ih =>
    intro k h
    by_cases hp : p a = true
    · simp only [firstIdx, hp, if_true, Option.some.injEq] at h
      subst h
      exact ⟨by simp, by simpa using hp⟩
    · simp only [Bool.not_eq_true] at hp
      simp only [firstIdx, hp, Bool.false_eq_true, if_false, Option.map_eq_some'] at h
      obtain ⟨k', hk', rfl⟩ := h
      obtain ⟨hlt, hpk⟩ := ih k' hk'
      exact ⟨by simpa using Nat.succ_lt_succ hlt, by simpa using hpk⟩

theorem take_set_le {α : Type} (l : List α) (m i : Nat) (a : α) (h : i ≤ m) :
    (l.set m a).take i = l.take i := by
  apply List.ext_getElem?
  intro n
  simp only [List.getElem?_take]
  split
  · exact List.getElem?_set_ne (by omega)
  · rfl

theorem listSwap_take_le {α : Type} (l : List α) (i j : Nat) (h : i ≤ j) :
    (listSwap l i j).take i = l.take i := by
  unfold listSwap
  cases hi : l[i]? with
  | none => rfl
  | some a =>
    cases hj : l[j]? with
    | none => rfl
    | some b => rw [take_set_le _ _ _ _ h, take_set_le _ _ _ _ (Nat.le_refl i)]

theorem sortStep_take (topics : List KTopic) (i : Nat) (n : String) :
    (sortStep topics i n).take i = topics.take i := by
  unfold sortStep
  cases firstIdx (fun t => t.name == n) (topics.drop (i + 1)) with
  | none => rfl
  | some k => exact listSwap_take_le topics i (i + 1 + k) (by omega)

theorem nodup_getElem?_not_mem_drop {α : Type} {l : List α} (h : l.Nodup)
    {i : Nat} {x : α} (hx : l[i]? = some x) : x ∉ l.drop (i + 1) := by
  intro hmem
  obtain ⟨k, hk, hke⟩ := List.getElem_of_mem hmem
  rw [List.getElem_drop] at hke
  obtain ⟨hi, hie⟩ := List.getElem?_eq_some.mp hx
  have : i + 1 + k = i := by
    have hk' : i + 1 + k < l.length := by
      have := List.length_drop (i + 1) l
      omega
    have h9 := (@List.Nodup.getElem_inj_iff _ l h (i + 1 + k) hk' i hi).mp (by rw [hke, hie])
    omega
  omega

theorem sortStep_getElem (topics : List KTopic) (i : Nat) (n : String)
    (hnd : (topics.map KTopic.name).Nodup)
    (hmem : n ∈ (topics.drop i).map KTopic.name) :
    ∃ t : KTopic, (sortStep topics i n)[i]? = some t ∧ t.name = n := by
  obtain ⟨t0, ht0, hname⟩ := List.mem_map.mp hmem
  obtain ⟨k, hk, hke⟩ := List.getElem_of_mem ht0
  have hdk : topics[i + k]? = some t0 := by
    rw [← List.getElem?_drop, List.getElem?_eq_getElem hk]
    exact congrArg some hke
  have hklen : k < topics.length - i := by simpa using hk
  have hilen : i < topics.length := by omega
  cases k with
  | zero =>
    -- the topic at position i already bears the name; no later match exists
    have htopi : topics[i]? = some t0 := by simpa using hdk
    have hnone : firstIdx (fun t => t.name == n) (topics.drop (i + 1)) = none := by
      rw [firstIdx_eq_none]
      intro a ha
      by_contra hcon
      simp only [Bool.not_eq_false, beq_iff_eq] at hcon
      have hmem2 : n ∈ (topics.map KTopic.name).drop (i + 1) := by
        rw [← List.map_drop]
        exact List.mem_map.mpr ⟨a, ha, hcon⟩
      have hmi : (topics.map KTopic.name)[i]? = some n := by
        rw [List.getElem?_map, htopi]
        simp [hname]
      exact nodup_getElem?_not_mem_drop hnd hmi hmem2
    refine ⟨t0, ?_, hname⟩
    unfold sortStep
    rw [hnone, htopi]
  | succ k' =>
    -- the named topic sits strictly beyond position i: the scan finds a match
    have ht0' : t0 ∈ topics.drop (i + 1) := by
      have h1 : (topics.drop (i + 1))[k']? = some t0 := by
        rw [List.getElem?_drop]
        rw [show i + 1 + k' = i + (k' + 1) from by omega]
        exact hdk
      exact List.mem_iff_getElem?.mpr ⟨k', h1⟩
    have hsome : ∃ k2, firstIdx (fun t => t.name == n) (topics.drop (i + 1)) = some k2 := by
      cases hfi : firstIdx (fun t => t.name == n) (topics.drop (i + 1)) with
      | none =>
        exfalso
        have := (firstIdx_eq_none _ _).mp hfi t0 ht0'
        simp [hname] at this
      | some k2 => exact ⟨k2, rfl⟩
    obtain ⟨k2, hk2⟩ := hsome
    obtain ⟨hk2lt, hk2p⟩ := firstIdx_eq_some _ _ _ hk2
    set e := (topics.drop (i + 1)).get ⟨k2, hk2lt⟩ with he
    have hename : e.name = n := by simpa using hk2p
    have hejs : topics[i + 1 + k2]? = some e := by
      rw [← List.getElem?_drop, List.getElem?_eq_getElem hk2lt]
      rfl
    have htopi : topics[i]? = some (topics.get ⟨i, hilen⟩) := by
      rw [List.getElem?_eq_getElem hilen]
      rfl
    refine ⟨e, ?_, hename⟩
    unfold sortStep listSwap
    simp only [hk2, htopi, hejs]
    rw [List.getElem?_set_ne (show i + 1 + k2 ≠ i from by omega)]
    exact List.getElem?_set_self (by simpa using hilen)

theorem sortStep_name_mem_drop (topics : List KTopic) (i : Nat) (n : String)
    (hnd : (topics.map KTopic.name).Nodup)
    (hmem : n ∈ (topics.drop i).map KTopic.name)
    {m : String} (hm : m ∈ (topics.drop i).map KTopic.name) (hne : m ≠ n) :
    m ∈ ((sortStep topics i n).drop (i + 1)).map KTopic.name := by
  set T := sortStep topics i n with hT
  have hperm : (T.map KTopic.name).Perm (topics.map KTopic.name) :=
    (sortStep_perm topics i n).map KTopic.name
  have htake : (T.map KTopic.name).take i = (topics.map KTopic.name).take i := by
    rw [← List.map_take, ← List.map_take, hT, sortStep_take]
  obtain ⟨t, hti, htn⟩ := sortStep_getElem topics i n hnd hmem
  have hNi : (T.map KTopic.name)[i]? = some n := by
    rw [List.getElem?_map, hT, hti]
    simp [htn]
  rw [List.map_drop] at hm
  have hmN : m ∈ topics.map KTopic.name := List.mem_of_mem_drop hm
  have hmN' : m ∈ T.map KTopic.name := hperm.mem_iff.mpr hmN
  have hmtake : m ∉ (topics.map KTopic.name).take i := by
    intro hc
    have hnd2 : ((topics.map KTopic.name).take i ++ (topics.map KTopic.name).drop i).Nodup := by
      rw [List.take_append_drop]; exact hnd
    exact (List.nodup_append.mp hnd2).2.2 hc hm
  have hcases : m ∈ (T.map KTopic.name).take (i + 1) ∨ m ∈ (T.map KTopic.name).drop (i + 1) := by
    rw [← List.take_append_drop (i + 1) (T.map KTopic.name)] at hmN'
    exact List.mem_append.mp hmN'
  cases hcases with
  | inr h => rw [List.map_drop]; exact h
  | inl h =>
    exfalso
    obtain ⟨k, hk, hkeq⟩ := List.getElem_of_mem h
    have hklt : k < i + 1 := by
      have := List.length_take (i + 1) (T.map KTopic.name)
      omega
    have hNk : (T.map KTopic.name)[k]? = some m := by
      have h5 : ((T.map KTopic.name).take (i + 1))[k]? = some m := by
        rw [List.getElem?_eq_getElem hk]
        exact congrArg some hkeq
      rwa [List.getElem?_take, if_pos hklt] at h5
    rcases Nat.lt_or_ge k i with hki | hki
    · -- an index strictly below i is untouched, so m would sit in the take-i part of topics
      have h6 : (topics.map KTopic.name)[k]? = some m := by
        have h7 : ((T.map KTopic.name).take i)[k]? = some m := by
          rw [List.getElem?_take, if_pos hki]
          exact hNk
        rw [htake, List.getElem?_take, if_pos hki] at h7
        exact h7
      have : m ∈ (topics.map KTopic.name).take i := by
        apply List.mem_iff_getElem?.mpr ⟨k, ?_⟩
        rw [List.getElem?_take, if_pos hki]
        exact h6
      exact hmtake this
    · -- k = i would force m = n
      have hki' : k = i := by omega
      subst hki'
      rw [hNi] at hNk
      exact hne (Option.some.inj hNk).symm

theorem sortAux_names :
    ∀ (specs : List KTopicSpec) (topics : List KTopic) (i : Nat),
      (topics.map KTopic.name).Nodup →
      (specs.map KTopicSpec.name).Nodup →
      (∀ s ∈ specs, s.name ∈ (topics.drop i).map KTopic.name) →
      (sortKafkaTopicsAux topics specs i).take i = topics.take i ∧
      (∀ k, k < specs.length →
        ((sortKafkaTopicsAux topics specs i).map KTopic.name)[i + k]? =
          (specs.map KTopicSpec.name)[k]?) := by
  intro specs
  induction specs with
  | nil =>
    intro topics i _ _ _
    exact ⟨rfl, by intro k hk; simp at hk⟩
  | cons s rest ih =>
    intro topics i h1 h2 h3
    set T := sortStep topics i s.name with hT
    have hmem : s.name ∈ (topics.drop i).map KTopic.name := h3 s (by simp)
    have hTnd : (T.map KTopic.name).Nodup := by
      have hp := (sortStep_perm topics i s.name).map KTopic.name
      exact hp.nodup_iff.mpr h1
    simp only [List.map_cons, List.nodup_cons] at h2
    have h3' : ∀ r ∈ rest, r.name ∈ (T.drop (i + 1)).map KTopic.name := by
      intro r hr
      refine sortStep_name_mem_drop topics i s.name h1 hmem (h3 r (by simp [hr])) ?_
      intro hcon
      exact h2.1 (hcon ▸ List.mem_map.mpr ⟨r, hr, rfl⟩)
    obtain ⟨ihtake, ihget⟩ := ih T (i + 1) hTnd h2.2 h3'
    obtain ⟨t, hti, htn⟩ := sortStep_getElem topics i s.name h1 hmem
    have hR : sortKafkaTopicsAux topics (s :: rest) i = sortKafkaTopicsAux T rest (i + 1) := rfl
    constructor
    · rw [hR]
      have h4 : (sortKafkaTopicsAux T rest (i + 1)).take i
          = ((sortKafkaTopicsAux T rest (i + 1)).take (i + 1)).take i := by
        rw [List.take_take]
        simp [Nat.min_def]
      rw [h4, ihtake]
      rw [show (T.take (i + 1)).take i = T.take i from by rw [List.take_take]; simp [Nat.min_def]]
      rw [hT]
      exact sortStep_take topics i s.name
    · intro k hk
      rw [hR]
      cases k with
      | zero =>
        have hgetT : (sortKafkaTopicsAux T rest (i + 1))[i]? = T[i]? := by
          have h8 := congrArg (fun l => l[i]?) ihtake
          simpa [List.getElem?_take, Nat.lt_succ_self] using h8
        rw [List.getElem?_map]
        simp only [Nat.add_zero]
        rw [hgetT, hti]
        simp [htn]
      | succ k' =>
        have h9 := ihget k' (by simpa using hk)
        rw [show i + (k' + 1) = i + 1 + k' from by omega]
        simpa using h9

/-- C3 (amended): assuming names are unique within each list AND every
declared (target) name actually occurs in the remote list, `sortKafkaTopics`
reorders the remote list so that the remote elements whose names appear in
the target list stand exactly in target order (the matched elements, read
off in result order, are the target names in target order). -/
theorem sortKafkaTopics_aligned (topics : List KTopic) (specs : List KTopicSpec)
    (hnd : (topics.map KTopic.name).Nodup)
    (hs : (specs.map KTopicSpec.name).Nodup)
    (hcov : ∀ s ∈ specs, s.name ∈ topics.map KTopic.name) :
    ((sortKafkaTopics topics specs).filter
        (fun t => (specs.map KTopicSpec.name).contains t.name)).map KTopic.name
      = specs.map KTopicSpec.name := by
  have hcov0 : ∀ s ∈ specs, s.name ∈ (topics.drop 0).map KTopic.name := by simpa using hcov
  obtain ⟨_, hget⟩ := sortAux_names specs topics 0 hnd hs hcov0
  show ((sortKafkaTopicsAux topics specs 0).filter
      (fun t => (specs.map KTopicSpec.name).contains t.name)).map KTopic.name
    = specs.map KTopicSpec.name
  set R := sortKafkaTopicsAux topics specs 0 with hR
  set S := specs.map KTopicSpec.name with hS
  set N := R.map KTopic.name with hN
  have hperm : N.Perm (topics.map KTopic.name) :=
    (sortKafkaTopicsAux_perm specs topics 0).map KTopic.name
  have hNnd : N.Nodup := hperm.nodup_iff.mpr hnd
  have hlen : S.length ≤ N.length := by
    have hsub : S ⊆ topics.map KTopic.name := by
      intro x hx
      obtain ⟨s, hs2, hx2⟩ := List.mem_map.mp hx
      exact hx2 ▸ hcov s hs2
    have h1 := (List.subperm_of_subset hs hsub).length_le
    have h2 := hperm.length_eq
    omega
  have htakeS : N.take S.length = S := by
    apply List.ext_getElem?
    intro k
    rw [List.getElem?_take]
    split
    · rename_i hks
      have hkk : k < specs.length := by
        have hslen : S.length = specs.length := by rw [hS, List.length_map]
        omega
      have h3 := hget k hkk
      simpa using h3
    · rename_i hks
      symm
      apply List.getElem?_eq_none
      omega
  have hsplitN : N = S ++ N.drop S.length := by
    conv_lhs => rw [← List.take_append_drop S.length N]
    rw [htakeS]
  have hdisj : ∀ x ∈ N.drop S.length, x ∉ S := by
    have h4 : (S ++ N.drop S.length).Nodup := hsplitN ▸ hNnd
    intro x hx hxs
    exact (List.nodup_append.mp h4).2.2 hxs hx
  have hfm : (R.filter (fun t => S.contains t.name)).map KTopic.name
      = N.filter (fun x => S.contains x) := by
    rw [hN, List.filter_map]
    rfl
  rw [hfm]
  conv_lhs => rw [hsplitN]
  rw [List.filter_append]
  have h5 : S.filter (fun x => S.contains x) = S := by
    rw [List.filter_eq_self]
    intro a ha
    simpa [List.contains] using List.elem_iff.mpr ha
  have h6 : (N.drop S.length).filter (fun x => S.contains x) = [] := by
    rw [List.filter_eq_nil_iff]
    intro a ha
    intro hc
    exact hdisj a ha (by simpa [List.contains, List.elem_iff] using hc)
  rw [h5, h6, List.append_nil]

/-- C3 counterexample: with remote topics `[B, A]` and declared specs
`[X, A, B]` (names unique within each list), `sortKafkaTopics` leaves the
remote list as `[B, A]`, so the matched remote elements read `B, A` while
their names occur in the order `A, B` in the target list — the claimed
relative-position property fails. -/
theorem sortKafkaTopics_relorder_cex :
    ((([⟨"B", 1, 1⟩, ⟨"A", 1, 1⟩] : List KTopic).map KTopic.name).Nodup) ∧
    ((([⟨"X", 1, 1⟩, ⟨"A", 1, 1⟩, ⟨"B", 1, 1⟩] : List KTopicSpec).map KTopicSpec.name).Nodup) ∧
    ¬ (((sortKafkaTopics [⟨"B", 1, 1⟩, ⟨"A", 1, 1⟩]
            [⟨"X", 1, 1⟩, ⟨"A", 1, 1⟩, ⟨"B", 1, 1⟩]).filter
          (fun t => ((([⟨"X", 1, 1⟩, ⟨"A", 1, 1⟩, ⟨"B", 1, 1⟩] : List KTopicSpec)).map
              KTopicSpec.name).contains t.name)).map KTopic.name
        = (([⟨"X", 1, 1⟩, ⟨"A", 1, 1⟩, ⟨"B", 1, 1⟩] : List KTopicSpec).filter
            (fun s => (([⟨"B", 1, 1⟩, ⟨"A", 1, 1⟩] : List KTopic).map
                KTopic.name).contains s.name)).map KTopicSpec.name) := by
  decide

/-- Witness for the amended C3 theorem at a concrete input: remote
`[B, A, C]`, target `[A, B]` (all target names present). -/
theorem sortKafkaTopics_aligned_witness :
    ((([⟨"B", 1, 1⟩, ⟨"A", 1, 1⟩, ⟨"C", 1, 1⟩] : List KTopic).map KTopic.name).Nodup) ∧
    ((([⟨"A", 2, 2⟩, ⟨"B", 2, 2⟩] : List KTopicSpec).map KTopicSpec.name).Nodup) ∧
    (∀ s ∈ ([⟨"A", 2, 2⟩, ⟨"B", 2, 2⟩] : List KTopicSpec),
      s.name ∈ ([⟨"B", 1, 1⟩, ⟨"A", 1, 1⟩, ⟨"C", 1, 1⟩] : List KTopic).map KTopic.name) ∧
    ((sortKafkaTopics [⟨"B", 1, 1⟩, ⟨"A", 1, 1⟩, ⟨"C", 1, 1⟩] [⟨"A", 2, 2⟩, ⟨"B", 2, 2⟩]).filter
        (fun t => ((([⟨"A", 2, 2⟩, ⟨"B", 2, 2⟩] : List KTopicSpec)).map
            KTopicSpec.name).contains t.name)).map KTopic.name
      = ([⟨"A", 2, 2⟩, ⟨"B", 2, 2⟩] : List KTopicSpec).map KTopicSpec.name :=
  ⟨by decide, by decide, by decide,
    sortKafkaTopics_aligned [⟨"B", 1, 1⟩, ⟨"A", 1, 1⟩, ⟨"C", 1, 1⟩]
      [⟨"A", 2, 2⟩, ⟨"B", 2, 2⟩] (by decide) (by decide) (by decide)⟩

/-- Modelled from the spec: `kafkaTopicsDiff` is called at
`updateKafkaClusterTopics` (line 761) but its definition is not under
`src/`. Per spec §4.2 the remote/declared topic lists are partitioned by
name: to-delete = remote names absent from the target list, to-add =
target specs whose names are absent from the remote list. -/
def kafkaTopicsDiff (currTopics : List KTopic) (targetTopics : List KTopicSpec) :
    List String × List KTopicSpec :=
  ((currTopics.filter (fun t => !targetTopics.any (fun s => s.name == t.name))).map KTopic.name,
   targetTopics.filter (fun s => !currTopics.any (fun t => t.name == s.name)))

/-- Modelled from the spec: the modify-candidates of §4.2, "the remaining
names" — names present in both the remote and the target list (the
candidates before the field-level change filter). -/
def kafkaModifyCandidates (currTopics : List KTopic) (targetTopics : List KTopicSpec) :
    List String :=
  (currTopics.map KTopic.name).filter (fun n => targetTopics.any (fun s => s.name == n))

/-- C1: the to-delete names, to-add names and modify-candidate names are
pairwise disjoint, and their union is exactly the union of the name-sets
of the two input lists. -/
theorem kafkaTopicsDiff_partition (curr : List KTopic) (targ : List KTopicSpec) (n : String) :
    (¬ (n ∈ (kafkaTopicsDiff curr targ).1 ∧
        n ∈ (kafkaTopicsDiff curr targ).2.map KTopicSpec.name)) ∧
    (¬ (n ∈ (kafkaTopicsDiff curr targ).1 ∧ n ∈ kafkaModifyCandidates curr targ)) ∧
    (¬ (n ∈ (kafkaTopicsDiff curr targ).2.map KTopicSpec.name ∧
        n ∈ kafkaModifyCandidates curr targ)) ∧
    ((n ∈ (kafkaTopicsDiff curr targ).1 ∨
        n ∈ (kafkaTopicsDiff curr targ).2.map KTopicSpec.name ∨
        n ∈ kafkaModifyCandidates curr targ)
      ↔ (n ∈ curr.map KTopic.name ∨ n ∈ targ.map KTopicSpec.name)) := by
  simp only [kafkaTopicsDiff, kafkaModifyCandidates, List.mem_map, List.mem_filter,
    List.any_eq_true, Bool.not_eq_true', Bool.not_eq_true, List.any_eq_false, beq_iff_eq,
    beq_eq_false_iff_ne, ne_eq]
  constructor
  · rintro ⟨⟨t, ⟨ht, hno⟩, rfl⟩, s, ⟨hs, hno2⟩, heq⟩
    exact (hno2 t ht) heq.symm
  constructor
  · rintro ⟨⟨t, ⟨ht, hno⟩, rfl⟩, ⟨t2, ht2, hteq⟩, s, hs, hseq⟩
    exact (hno s hs) hseq
  constructor
  · rintro ⟨⟨s, ⟨hs, hno⟩, rfl⟩, ⟨t2, ht2, heq⟩, s2, hs2, hseq⟩
    exact (hno t2 ht2) heq
  constructor
  · rintro (⟨t, ⟨ht, _⟩, rfl⟩ | ⟨s, ⟨hs, _⟩, rfl⟩ | ⟨⟨t, ht, rfl⟩, _⟩)
    · exact Or.inl ⟨t, ht, rfl⟩
    · exact Or.inr ⟨s, hs, rfl⟩
    · exact Or.inl ⟨t, ht, rfl⟩
  · rintro (⟨t, ht, rfl⟩ | ⟨s, hs, rfl⟩)
    · by_cases hc : ∃ s ∈ targ, s.name = t.name
      · exact Or.inr (Or.inr ⟨⟨t, ht, rfl⟩, hc⟩)
      · push_neg at hc
        exact Or.inl ⟨t, ⟨ht, fun s hs => hc s hs⟩, rfl⟩
    · by_cases hc : ∃ t ∈ curr, t.name = s.name
      · obtain ⟨t, ht, hteq⟩ := hc
        exact Or.inr (Or.inr ⟨⟨t, ht, hteq⟩, s, hs, rfl⟩)
      · push_neg at hc
        exact Or.inr (Or.inl ⟨s, ⟨hs, fun t ht => hc t ht⟩, rfl⟩)

/-- Tests whether `pat` starts `s` (character-wise scan). -/
def startsWith : List Char → List Char → Bool
  | [], _ => true
  | _ :: _, [] => false
  | p :: ps, c :: cs => p == c && startsWith ps cs

/-- Model of `strings.Replace(s, old, new, -1)` from the Go standard library:
replace every non-overlapping occurrence of `pat`, scanning left to right
and never rescanning replacement text. `fuel` is a structural-recursion
bound; `goReplace` instantiates it with the input length, which suffices
because every occurrence consumes at least one character (all patterns
used by the provider — `"{version}"`, `"."`, `"%d"` — are nonempty;
for an empty pattern this model returns the input unchanged). -/
def replaceAllAux (pat rep : List Char) : Nat → List Char → List Char
  | _, [] => []
  | 0, s => s
  | fuel + 1, c :: rest =>
    if pat ≠ [] ∧ startsWith pat (c :: rest) = true then
      rep ++ replaceAllAux pat rep fuel ((c :: rest).drop pat.length)
    else
      c :: replaceAllAux pat rep fuel rest

/-- Number of non-overlapping occurrences of `pat`, scanned exactly as
`replaceAllAux` scans them. -/
def occCountAux (pat : List Char) : Nat → List Char → Nat
  | _, [] => 0
  | 0, _ => 0
  | fuel + 1, c :: rest =>
    if pat ≠ [] ∧ startsWith pat (c :: rest) = true then
      1 + occCountAux pat fuel ((c :: rest).drop pat.length)
    else
      occCountAux pat fuel rest

/-- String-level wrapper for `strings.Replace(s, pat, rep, -1)`. -/
def goReplace (s pat rep : String) : String :=
  ⟨replaceAllAux pat.data rep.data s.data.length s.data⟩

/-- Number of non-overlapping occurrences of `pat` in `s`. -/
def occCount (s pat : String) : Nat :=
  occCountAux pat.data s.data.length s.data

/-- Embedding of `getSuffixVerion` (lines 699–701): the declared Kafka version with
every dot replaced by an underscore. -/
def getSuffixVerion (version : String) : String :=
  goReplace version "." "_"

/-- The per-field path transform of `updateKafkaClusterParams` (line 714)
and `updateKafkaTopic` (line 1011):
`strings.Replace(path, "{version}", getSuffixVerion(d), -1)`. -/
def kafkaUpdatePath (path version : String) : String :=
  goReplace path "{version}" (getSuffixVerion version)

/-- Embedding of `mdbKafkaUpdateFieldsMap` (lines 652–675), as an association list of
(declared field, remote update-mask path) entries. -/
def mdbKafkaUpdateFieldsMap : List (String × String) :=
  [("name", "name"),
   ("description", "description"),
   ("labels", "labels"),
   ("security_group_ids", "security_group_ids"),
   ("config.0.zones", "config_spec.zone_id"),
   ("config.0.brokers_count", "config_spec.brokers_count"),
   ("config.0.kafka.0.resources.0.resource_preset_id", "config_spec.kafka.resources.resource_preset_id"),
   ("config.0.kafka.0.resources.0.disk_type_id", "config_spec.kafka.resources.disk_type_id"),
   ("config.0.kafka.0.resources.0.disk_size", "config_spec.kafka.resources.disk_size"),
   ("config.0.kafka.0.kafka_config.0.compression_type", "config_spec.kafka.kafka_config_{version}.compression_type"),
   ("config.0.kafka.0.kafka_config.0.log_flush_interval_messages", "config_spec.kafka.kafka_config_{version}.log_flush_interval_messages"),
   ("config.0.kafka.0.kafka_config.0.log_flush_interval_ms", "config_spec.kafka.kafka_config_{version}.log_flush_interval_ms"),
   ("config.0.kafka.0.kafka_config.0.log_flush_scheduler_interval_ms", "config_spec.kafka.kafka_config_{version}.log_flush_scheduler_interval_ms"),
   ("config.0.kafka.0.kafka_config.0.log_retention_bytes", "config_spec.kafka.kafka_config_{version}.log_retention_bytes"),
   ("config.0.kafka.0.kafka_config.0.log_retention_hours", "config_spec.kafka.kafka_config_{version}.log_retention_hours"),
   ("config.0.kafka.0.kafka_config.0.log_retention_minutes", "config_spec.kafka.kafka_config_{version}.log_retention_minutes"),
   ("config.0.kafka.0.kafka_config.0.log_retention_ms", "config_spec.kafka.kafka_config_{version}.log_retention_ms"),
   ("config.0.kafka.0.kafka_config.0.log_segment_bytes", "config_spec.kafka.kafka_config_{version}.log_segment_bytes"),
   ("config.0.kafka.0.kafka_config.0.log_preallocate", "config_spec.kafka.kafka_config_{version}.log_preallocate"),
   ("config.0.zookeeper.0.resources.0.resource_preset_id", "config_spec.zookeeper.resources.resource_preset_id"),
   ("config.0.zookeeper.0.resources.0.disk_type_id", "config_spec.zookeeper.resources.disk_type_id"),
   ("config.0.zookeeper.0.resources.0.disk_size", "config_spec.zookeeper.resources.disk_size")]

theorem startsWith_decomp : ∀ (pat s : List Char), startsWith pat s = true →
    s = pat ++ s.drop pat.length := by
  intro pat
  induction pat with
  | nil => intro s _; simp
  | cons p ps ih =>
    intro s h
    cases s with
    | nil => simp [startsWith] at h
    | cons c cs =>
      simp only [startsWith, Bool.and_eq_true, beq_iff_eq] at h
      obtain ⟨hp, h2⟩ := h
      subst hp
      simp only [List.length_cons, List.drop_succ_cons, List.cons_append]
      exact congrArg (List.cons p) (ih cs h2)

theorem pat_length_pos {pat : List Char} (hp : pat ≠ []) : 1 ≤ pat.length := by
  cases pat with
  | nil => exact absurd rfl hp
  | cons a as => simp

theorem replaceAllAux_occ_zero (pat rep : List Char) (hp : pat ≠ []) :
    ∀ (fuel : Nat) (s : List Char), s.length ≤ fuel →
      occCountAux pat fuel s = 0 → replaceAllAux pat rep fuel s = s := by
  intro fuel
  induction fuel with
  | zero =>
    intro s h1 _
    have hs : s = [] := List.length_eq_zero.mp (Nat.le_zero.mp h1)
    subst hs
    rfl
  | succ f ih =>
    intro s h1 h0
    cases s with
    | nil => rfl
    | cons c rest =>
      by_cases hcond : pat ≠ [] ∧ startsWith pat (c :: rest) = true
      · simp only [occCountAux, if_pos hcond] at h0
        omega
      · simp only [occCountAux, if_neg hcond] at h0
        simp only [replaceAllAux, if_neg hcond]
        have h1' : rest.length ≤ f := by
          have : rest.length + 1 ≤ f + 1 := by simpa using h1
          omega
        exact congrArg (List.cons c) (ih rest h1' h0)

theorem replaceAllAux_occ_one (pat rep : List Char) (hp : pat ≠ []) :
    ∀ (fuel : Nat) (s : List Char), s.length ≤ fuel →
      occCountAux pat fuel s = 1 →
      ∃ pre suf, s = pre ++ pat ++ suf ∧
        replaceAllAux pat rep fuel s = pre ++ rep ++ suf := by
  intro fuel
  induction fuel with
  | zero =>
    intro s h1 hocc
    have hs : s = [] := List.length_eq_zero.mp (Nat.le_zero.mp h1)
    subst hs
    simp [occCountAux] at hocc
  | succ f ih =>
    intro s h1 hocc
    cases s with
    | nil => simp [occCountAux] at hocc
    | cons c rest =>
      by_cases hcond : pat ≠ [] ∧ startsWith pat (c :: rest) = true
      · simp only [occCountAux, if_pos hcond] at hocc
        have hoccd : occCountAux pat f ((c :: rest).drop pat.length) = 0 := by omega
        have hlend : ((c :: rest).drop pat.length).length ≤ f := by
          simp only [List.length_drop, List.length_cons]
          have hplen := pat_length_pos hp
          have h1' : rest.length + 1 ≤ f + 1 := by simpa using h1
          omega
        refine ⟨[], (c :: rest).drop pat.length, ?_, ?_⟩
        · simpa using startsWith_decomp pat (c :: rest) hcond.2
        · simp only [replaceAllAux, if_pos hcond]
          rw [replaceAllAux_occ_zero pat rep hp f _ hlend hoccd]
          simp
      · simp only [occCountAux, if_neg hcond] at hocc
        have h1' : rest.length ≤ f := by
          have : rest.length + 1 ≤ f + 1 := by simpa using h1
          omega
        obtain ⟨pre, suf, hseq, hrep⟩ := ih rest h1' hocc
        refine ⟨c :: pre, suf, ?_, ?_⟩
        · simp [hseq]
        · simp only [replaceAllAux, if_neg hcond]
          rw [hrep]
          simp

theorem goReplace_occ_zero (s pat rep : String) (hp : pat.data ≠ [])
    (h : occCount s pat = 0) : goReplace s pat rep = s := by
  unfold occCount at h
  unfold goReplace
  rw [replaceAllAux_occ_zero pat.data rep.data hp s.data.length s.data (Nat.le_refl _) h]

theorem goReplace_occ_one (s pat rep : String) (hp : pat.data ≠ [])
    (h : occCount s pat = 1) :
    ∃ pre suf, s.data = pre ++ pat.data ++ suf ∧
      (goReplace s pat rep).data = pre ++ rep.data ++ suf :=
  replaceAllAux_occ_one pat.data rep.data hp s.data.length s.data (Nat.le_refl _) h

/-- C6: for every entry of `mdbKafkaUpdateFieldsMap` and every version
string, the mapper either leaves the path unchanged (when it contains no
`{version}` placeholder) or substitutes the placeholder exactly once
(the path splits as `pre ++ "{version}" ++ suf` and the result is
`pre ++ normalized-version ++ suf`, the normalized version being the
version with dots replaced by underscores). -/
theorem mdbKafkaUpdateFieldsMap_version_subst (fp : String × String)
    (hmem : fp ∈ mdbKafkaUpdateFieldsMap) (version : String) :
    (occCount fp.2 "{version}" = 0 ∧ kafkaUpdatePath fp.2 version = fp.2) ∨
    (occCount fp.2 "{version}" = 1 ∧ ∃ pre suf,
      fp.2.data = pre ++ "{version}".data ++ suf ∧
      (kafkaUpdatePath fp.2 version).data = pre ++ (getSuffixVerion version).data ++ suf) := by
  have h01 : ∀ x ∈ mdbKafkaUpdateFieldsMap,
      occCount x.2 "{version}" = 0 ∨ occCount x.2 "{version}" = 1 := by decide
  have hp : ("{version}" : String).data ≠ [] := by decide
  rcases h01 fp hmem with h | h
  · exact Or.inl ⟨h, goReplace_occ_zero fp.2 "{version}" (getSuffixVerion version) hp h⟩
  · exact Or.inr ⟨h, goReplace_occ_one fp.2 "{version}" (getSuffixVerion version) hp h⟩

/-- Witness for C6: the `compression_type` kafka-config entry with
version `"2.8"`; also checks the spec's example normalization
`"2.8" → "2_8"`. -/
theorem mdbKafkaUpdateFieldsMap_version_subst_witness :
    ((occCount "config_spec.kafka.kafka_config_{version}.compression_type" "{version}" = 0 ∧
      kafkaUpdatePath "config_spec.kafka.kafka_config_{version}.compression_type" "2.8"
        = "config_spec.kafka.kafka_config_{version}.compression_type") ∨
    (occCount "config_spec.kafka.kafka_config_{version}.compression_type" "{version}" = 1 ∧
      ∃ pre suf,
        ("config_spec.kafka.kafka_config_{version}.compression_type" : String).data
          = pre ++ "{version}".data ++ suf ∧
        (kafkaUpdatePath "config_spec.kafka.kafka_config_{version}.compression_type" "2.8").data
          = pre ++ (getSuffixVerion "2.8").data ++ suf)) ∧
    getSuffixVerion "2.8" = "2_8" :=
  ⟨mdbKafkaUpdateFieldsMap_version_subst
      ("config.0.kafka.0.kafka_config.0.compression_type",
       "config_spec.kafka.kafka_config_{version}.compression_type")
      (by decide) "2.8",
   by decide⟩

/-- Model of `kafka.Permission` (a (topic, role) pair). -/
structure KPermission where
  topicName : String
  role : String
deriving DecidableEq, Repr

/-- Model of `kafka.UserSpec` / `kafka.User`: name, secret credential and
permission list. -/
structure KUserSpec where
  name : String
  password : String
  permissions : List KPermission
deriving DecidableEq, Repr

/-- The per-user comparison of `updateKafkaUsers` (lines 933–942); `u` is
the old spec found in the by-name map `m`, `user` the new spec. The Go
code compares the permission slices via their `fmt.Sprintf("%v", …)`
renderings; the protobuf text rendering is order-sensitive and
distinguishes structurally unequal permission lists, so the comparison is
modelled as plain list inequality. -/
def kafkaUserUpdatePaths (u user : KUserSpec) : List String :=
  (if user.password ≠ u.password then ["password"] else []) ++
  (if user.permissions ≠ u.permissions then ["permissions"] else [])

/-- Embedding of `updateKafkaUsers` (lines 919–960): build the old-spec lookup keyed by
name (later entries overwrite, as for a Go map), then for each new spec
with a matching old spec issue an `UpdateUserRequest` carrying exactly the
changed sub-paths, if any changed. Returns the issued
(user name, update-mask paths) instructions in order. -/
def updateKafkaUsers (oldSpecs newSpecs : List KUserSpec) : List (String × List String) :=
  newSpecs.filterMap (fun user =>
    match oldSpecs.reverse.find? (fun u => u.name == user.name) with
    | none => none
    | some u =>
      let updatePaths := kafkaUserUpdatePaths u user
      if updatePaths.isEmpty then none else some (user.name, updatePaths))

/-- C4: two user specs with the same name and the same permissions but a
different password yield exactly one update instruction whose mask is
exactly `["password"]`. -/
theorem updateKafkaUsers_password_only (u user : KUserSpec)
    (hname : u.name = user.name) (hperm : u.permissions = user.permissions)
    (hpw : u.password ≠ user.password) :
    updateKafkaUsers [u] [user] = [(user.name, ["password"])] := by
  simp [updateKafkaUsers, kafkaUserUpdatePaths, List.find?, hname, hperm, Ne.symm hpw]

/-- Witness for C4. -/
theorem updateKafkaUsers_password_only_witness :
    updateKafkaUsers [⟨"alice", "old", [⟨"t", "producer"⟩]⟩]
        [⟨"alice", "new", [⟨"t", "producer"⟩]⟩]
      = [("alice", ["password"])] :=
  updateKafkaUsers_password_only _ _ (by decide) (by decide) (by decide)

/-- C5: two user specs with the same name and password whose permission
lists hold the same elements in a different order still yield an update
instruction flagging `"permissions"` (the comparison is order-sensitive
full-structure equality, not set equality). -/
theorem updateKafkaUsers_permission_order (u user : KUserSpec)
    (hname : u.name = user.name) (hpw : u.password = user.password)
    (hperm : u.permissions.Perm user.permissions)
    (hne : u.permissions ≠ user.permissions) :
    updateKafkaUsers [u] [user] = [(user.name, ["permissions"])] := by
  simp [updateKafkaUsers, kafkaUserUpdatePaths, List.find?, hname, hpw, Ne.symm hne]

/-- Witness for C5. -/
theorem updateKafkaUsers_permission_order_witness :
    updateKafkaUsers [⟨"bob", "pw", [⟨"t1", "r1"⟩, ⟨"t2", "r2"⟩]⟩]
        [⟨"bob", "pw", [⟨"t2", "r2"⟩, ⟨"t1", "r1"⟩]⟩]
      = [("bob", ["permissions"])] :=
  updateKafkaUsers_permission_order _ _ (by decide) (by decide) (by decide) (by decide)

/-- Outcome of an update sub-phase: the update calls issued (each carrying
its update-mask paths), the fields passed to `d.SetPartial`, and the error
returned, if any. -/
structure UpdOutcome where
  calls : List (List String)
  markers : List String
  err : Option String
deriving DecidableEq, Repr

/-- Embedding of `updateKafkaClusterParams` (lines 703–743): collect the changed
declared fields of `mdbKafkaUpdateFieldsMap`, return without any remote
call when none changed, otherwise issue exactly one cluster update whose
mask holds the mapped paths and run the collected `onDone` callbacks only
after the awaited operation succeeds. Each callback is the Go closure
`func() { d.SetPartial(field) }`: it captures the single range variable
`field` shared by all iterations (pre-Go-1.22 semantics) and runs only
after the loop has finished, so every callback reads the key of the
final map iteration — not the field it was registered for. `hasChange`
models `d.HasChange`; `issueOk` and `waitOk` model the remote call being
accepted and the awaited operation succeeding. (A Go map iterates in
unspecified order; the model's fixed entry order stands in for one such
order — under any order, all callbacks share that order's final key.) -/
def updateKafkaClusterParams (hasChange : String → Bool) (version : String)
    (issueOk waitOk : Bool) : UpdOutcome :=
  let changed := mdbKafkaUpdateFieldsMap.filter (fun fp => hasChange fp.1)
  let updatePath := changed.map (fun fp => kafkaUpdatePath fp.2 version)
  let lastField := (mdbKafkaUpdateFieldsMap.map (fun fp => fp.1)).getLast?.getD ""
  let onDone := changed.map (fun _ => lastField)
  if updatePath.isEmpty then ⟨[], [], none⟩
  else if !issueOk then
    ⟨[updatePath], [], some "error while requesting API to update Kafka Cluster"⟩
  else if !waitOk then
    ⟨[updatePath], [], some "error while updating Kafka Cluster"⟩
  else ⟨[updatePath], onDone, none⟩

/-- Outcome of the VPC address update: the update calls issued (with their
mask paths) and the error, if any. -/
structure VpcUpdOutcome where
  calls : List (List String)
  err : Option String
deriving DecidableEq, Repr

/-- Embedding of `resourceYandexVPCAddressUpdate` (`src/unnamed/part_000`,
lines 218–267): accumulate mask paths for the changed top-level fields
(labels, name, description) and then unconditionally issue one
address-update call — the function has no empty-mask early return —
then await it. `labelsOk` models `expandLabels` succeeding (it is only
consulted when labels changed). -/
def resourceYandexVPCAddressUpdate (hasChange : String → Bool)
    (labelsOk issueOk waitOk : Bool) : VpcUpdOutcome :=
  if hasChange "labels" && !labelsOk then ⟨[], some "labels expand error"⟩
  else
    let paths :=
      (if hasChange "labels" then ["labels"] else []) ++
      (if hasChange "name" then ["name"] else []) ++
      (if hasChange "description" then ["description"] else [])
    if !issueOk then ⟨[paths], some "error while requesting API to update Address"⟩
    else if !waitOk then ⟨[paths], some "error while updating Address"⟩
    else ⟨[paths], none⟩

/-- C2 counterexample: with zero changed declared fields the VPC address
reconciler still issues a remote update call (with an empty update mask),
so "every resource reconciler issues no remote update call" is false. -/
theorem vpcAddressUpdate_nochange_cex :
    (resourceYandexVPCAddressUpdate (fun _ => false) true true true).calls ≠ [] := by
  decide

/-- C2 (amended): with zero changed declared fields the Kafka cluster
parameter updater issues no remote call, while the VPC address updater
always issues exactly one update call, whose update mask is empty in that
case. -/
theorem update_nochange (hasChange : String → Bool) (version : String)
    (issueOk waitOk labelsOk iOk wOk : Bool)
    (h : ∀ f, hasChange f = false) :
    (updateKafkaClusterParams hasChange version issueOk waitOk).calls = [] ∧
    (resourceYandexVPCAddressUpdate hasChange labelsOk iOk wOk).calls = [[]] := by
  constructor
  · have hnil : mdbKafkaUpdateFieldsMap.filter (fun fp => hasChange fp.1) = [] := by
      rw [List.filter_eq_nil_iff]
      intro a _
      simp [h]
    simp [updateKafkaClusterParams, hnil]
  · cases iOk with
    | false => simp [resourceYandexVPCAddressUpdate, h]
    | true =>
      cases wOk with
      | false => simp [resourceYandexVPCAddressUpdate, h]
      | true => simp [resourceYandexVPCAddressUpdate, h]

/-- Witness for the amended C2 theorem. -/
theorem update_nochange_witness :
    (∀ f, (fun _ => false : String → Bool) f = false) ∧
    ((updateKafkaClusterParams (fun _ => false) "2.8" true true).calls = [] ∧
     (resourceYandexVPCAddressUpdate (fun _ => false) true true true).calls = [[]]) :=
  ⟨fun _ => rfl, update_nochange (fun _ => false) "2.8" true true true true true (fun _ => rfl)⟩

/-- Embedding of `mdbKafkaUpdateTopicFieldsMap` (lines 979–996), as an association list
of (declared field template, remote update-mask path) entries. -/
def mdbKafkaUpdateTopicFieldsMap : List (String × String) :=
  [("topic.%d.name", "topic_spec.name"),
   ("topic.%d.partitions", "topic_spec.partitions"),
   ("topic.%d.replication_factor", "topic_spec.replication_factor"),
   ("topic.%d.topic_config.0.cleanup_policy", "topic_spec.topic_config_{version}.cleanup_policy"),
   ("topic.%d.topic_config.0.compression_type", "topic_spec.topic_config_{version}.compression_type"),
   ("topic.%d.topic_config.0.delete_retention_ms", "topic_spec.topic_config_{version}.delete_retention_ms"),
   ("topic.%d.topic_config.0.file_delete_delay_ms", "topic_spec.topic_config_{version}.file_delete_delay_ms"),
   ("topic.%d.topic_config.0.flush_messages", "topic_spec.topic_config_{version}.flush_messages"),
   ("topic.%d.topic_config.0.flush_ms", "topic_spec.topic_config_{version}.flush_ms"),
   ("topic.%d.topic_config.0.min_compaction_lag_ms", "topic_spec.topic_config_{version}.min_compaction_lag_ms"),
   ("topic.%d.topic_config.0.retention_bytes", "topic_spec.topic_config_{version}.retention_bytes"),
   ("topic.%d.topic_config.0.retention_ms", "topic_spec.topic_config_{version}.retention_ms"),
   ("topic.%d.topic_config.0.max_message_bytes", "topic_spec.topic_config_{version}.max_message_bytes"),
   ("topic.%d.topic_config.0.min_insync_replicas", "topic_spec.topic_config_{version}.min_insync_replicas"),
   ("topic.%d.topic_config.0.segment_bytes", "topic_spec.topic_config_{version}.segment_bytes"),
   ("topic.%d.topic_config.0.preallocate", "topic_spec.topic_config_{version}.preallocate")]

/-- Model of `fmt.Sprintf(field, index)` for the `topic.%d.…` field templates. -/
def sprintfIdx (s : String) (index : Nat) : String :=
  goReplace s "%d" (toString index)

/-- Embedding of `updateKafkaTopic` (lines 998–1040): collect the changed per-topic
fields (`d.HasChange(fmt.Sprintf(field, topicSpec.index))`), return
without any remote call when none changed, otherwise issue exactly one
topic update and run the collected `onDone` callbacks only after the
awaited operation succeeds. As in `updateKafkaClusterParams`, each
callback is `func() { d.SetPartial(field) }` over the shared range
variable (pre-Go-1.22 semantics) and runs after the loop, so every
callback reads the final iterated entry; on top of that the source passes
the raw field template (`topic.%d.name`, …), not the indexed field, so
the value marked is the final template of the model's iteration order. -/
def updateKafkaTopic (hasChange : String → Bool) (index : Nat) (version : String)
    (issueOk waitOk : Bool) : UpdOutcome :=
  let changed := mdbKafkaUpdateTopicFieldsMap.filter
    (fun fp => hasChange (sprintfIdx fp.1 index))
  let updatePath := changed.map (fun fp => kafkaUpdatePath fp.2 version)
  let lastField := (mdbKafkaUpdateTopicFieldsMap.map (fun fp => fp.1)).getLast?.getD ""
  let onDone := changed.map (fun _ => lastField)
  if updatePath.isEmpty then ⟨[], [], none⟩
  else if !issueOk then
    ⟨[updatePath], [], some "error while requesting API to update topic"⟩
  else if !waitOk then
    ⟨[updatePath], [], some "error while updating topic"⟩
  else ⟨[updatePath], onDone, none⟩

/-- C9: code bug. In both update sub-phases the `onDone` closures
`func() { d.SetPartial(field) }` capture the range variable `field`
shared by every iteration (pre-Go-1.22 semantics) and are invoked only
after the loop, once the awaited operation has succeeded — so each
closure marks the key of the final map iteration instead of the changed
field it was registered for. Evaluated at the failing input (exactly the
`name` and `description` cluster fields changed; exactly the name and
partitions fields of topic index 0 changed; call and wait succeed), the
cluster updater marks the final map key twice and marks neither changed
field, and the topic updater likewise marks the final field template
twice; the claim instead requires a marker per changed field. The
only-after-success half of the claim does hold: when the call or the
awaited operation fails, no marker is set. -/
theorem update_markers_capture_bug :
    ((updateKafkaClusterParams (fun f => f == "name" || f == "description")
          "2.8" true true).markers
        = ["config.0.zookeeper.0.resources.0.disk_size",
           "config.0.zookeeper.0.resources.0.disk_size"] ∧
      "name" ∉ (updateKafkaClusterParams (fun f => f == "name" || f == "description")
          "2.8" true true).markers ∧
      "description" ∉ (updateKafkaClusterParams
          (fun f => f == "name" || f == "description") "2.8" true true).markers) ∧
    ((updateKafkaTopic (fun f => f == "topic.0.name" || f == "topic.0.partitions")
          0 "2.8" true true).markers
        = ["topic.%d.topic_config.0.preallocate", "topic.%d.topic_config.0.preallocate"] ∧
      "topic.%d.name" ∉ (updateKafkaTopic
          (fun f => f == "topic.0.name" || f == "topic.0.partitions")
          0 "2.8" true true).markers ∧
      "topic.0.name" ∉ (updateKafkaTopic
          (fun f => f == "topic.0.name" || f == "topic.0.partitions")
          0 "2.8" true true).markers) ∧
    (updateKafkaClusterParams (fun f => f == "name" || f == "description")
        "2.8" true false).markers = [] ∧
    (updateKafkaTopic (fun f => f == "topic.0.name" || f == "topic.0.partitions")
        0 "2.8" false true).markers = [] := by
  decide

/-- A remote API error: gRPC NotFound or any other error. -/
inductive RemoteErr
  | notFound
  | other (msg : String)
deriving DecidableEq, Repr

/-- The slice of Terraform resource state the read handlers touch: the
resource id (`d.Id()` / `d.SetId`) and the attribute assignments made by
`d.Set`. -/
structure ResourceData where
  id : String
  attrs : List (String × String)
deriving DecidableEq, Repr

/-- Modelled from the spec: `handleNotFoundError` is called by both read
handlers but is not under `src/`. Per spec §4.4/§7, a "not found" remote
error clears the local identity (`d.SetId("")`) and reports success (the
non-fatal resource-removed signal); any other error is wrapped with the
resource description and propagated. -/
def handleNotFoundError (e : RemoteErr) (d : ResourceData) (desc : String) :
    ResourceData × Option String :=
  match e with
  | .notFound => ({ d with id := "" }, none)
  | .other msg => (d, some (desc ++ ": " ++ msg))

/-- The remote Kafka cluster fields the read handler copies into state
(subset of `kafka.Cluster` sufficient for the claim). -/
structure KClusterInfo where
  name : String
  description : String
deriving DecidableEq, Repr

/-- Embedding of `resourceYandexMDBKafkaClusterRead` (lines 481–550): fetch the cluster
by id; on any fetch error delegate to `handleNotFoundError`; otherwise
populate the attributes from the cluster and from the paginated topic and
user listings (whose errors are wrapped and propagated). The remote
results are passed in explicitly (`fetch`, `topicsFetch`, `usersFetch`). -/
def resourceYandexMDBKafkaClusterRead (d : ResourceData)
    (fetch : Except RemoteErr KClusterInfo)
    (topicsFetch : Except RemoteErr (List KTopic))
    (usersFetch : Except RemoteErr (List KUserSpec)) :
    ResourceData × Option String :=
  match fetch with
  | .error e => handleNotFoundError e d ("Cluster " ++ d.id)
  | .ok c =>
    let d1 : ResourceData :=
      { d with attrs := [("name", c.name), ("description", c.description)] }
    match topicsFetch with
    | .error e =>
      (d1, some ("error while getting list of topics: " ++
        (match e with | .notFound => "NotFound" | .other m => m)))
    | .ok topics =>
      let d2 : ResourceData :=
        { d1 with attrs := d1.attrs ++ topics.map (fun t => ("topic", t.name)) }
      match usersFetch with
      | .error e =>
        (d2, some ("error while getting list of users: " ++
          (match e with | .notFound => "NotFound" | .other m => m)))
      | .ok users =>
        ({ d2 with attrs := d2.attrs ++ users.map (fun u => ("user", u.name)) }, none)

/-- The remote VPC address fields the read handler copies into state. -/
structure VpcAddressInfo where
  name : String
  description : String
deriving DecidableEq, Repr

/-- Embedding of `yandexVPCAddressRead` (`src/unnamed/part_000`, lines 113–151): fetch
the address by id; on any fetch error delegate to
`handleNotFoundError` (via `handleAddressNotFoundError`); otherwise
populate the attributes. -/
def yandexVPCAddressRead (d : ResourceData)
    (fetch : Except RemoteErr VpcAddressInfo) : ResourceData × Option String :=
  match fetch with
  | .error e => handleNotFoundError e d ("VPC address " ++ d.id)
  | .ok a =>
    ({ d with attrs := [("name", a.name), ("description", a.description)] }, none)

/-- C7: when the fetch-by-id returns NotFound, both read handlers clear
the local identity (the non-fatal resource-removed signal) and return no
error — the not-found error is never propagated to the caller. -/
theorem read_notFound_nonfatal (d : ResourceData)
    (topicsFetch : Except RemoteErr (List KTopic))
    (usersFetch : Except RemoteErr (List KUserSpec)) :
    resourceYandexMDBKafkaClusterRead d (.error .notFound) topicsFetch usersFetch
      = ({ d with id := "" }, none) ∧
    yandexVPCAddressRead d (.error .notFound) = ({ d with id := "" }, none) := by
  constructor
  · rfl
  · rfl

/-- A remote topic call issued by the topic-collection reconciliation. -/
inductive KafkaTopicCall
  | delTopic (name : String)
  | createTopic (name : String)
  | updTopic (name : String)
deriving DecidableEq, Repr

/-- Phase of a call: 0 = delete, 1 = add, 2 = update. -/
def phaseRank : KafkaTopicCall → Nat
  | .delTopic _ => 0
  | .createTopic _ => 1
  | .updTopic _ => 2

/-- Issue calls one at a time, in order; each call is awaited to
completion before the next one is issued (the oracle `ok` reports whether
the issued call and its awaited operation succeeded), and the first
failure stops the loop (the Go `return err`). Returns the issued calls
and whether all of them succeeded. -/
def runCalls (ok : KafkaTopicCall → Bool) : List KafkaTopicCall → List KafkaTopicCall × Bool
  | [] => ([], true)
  | c :: rest =>
    if ok c then
      let r := runCalls ok rest
      (c :: r.1, r.2)
    else ([c], false)

/-- Embedding of `updateKafkaClusterTopics` (lines 745–800), from the diff results on:
delete the to-delete topics one by one, then create the to-add ones, then
update the modified ones (a modified topic whose per-topic mask is empty
issues no call, mirroring `updateKafkaTopic`'s early return). Each phase
runs only if every call of the earlier phases completed successfully. -/
def updateKafkaClusterTopicsTrace (ok : KafkaTopicCall → Bool)
    (toDelete : List String) (toAdd : List KTopicSpec)
    (modified : List (String × List String)) : List KafkaTopicCall × Bool :=
  let del := runCalls ok (toDelete.map KafkaTopicCall.delTopic)
  if !del.2 then (del.1, false)
  else
    let add := runCalls ok (toAdd.map (fun s => KafkaTopicCall.createTopic s.name))
    if !add.2 then (del.1 ++ add.1, false)
    else
      let upd := runCalls ok
        ((modified.filter (fun m => !m.2.isEmpty)).map (fun m => KafkaTopicCall.updTopic m.1))
      (del.1 ++ add.1 ++ upd.1, upd.2)

theorem runCalls_mem (ok : KafkaTopicCall → Bool) :
    ∀ (cs : List KafkaTopicCall) (c : KafkaTopicCall), c ∈ (runCalls ok cs).1 → c ∈ cs := by
  intro cs
  induction cs with
  | nil => intro c h; simpa [runCalls] using h
  | cons a rest ih =>
    intro c h
    by_cases ha : ok a = true
    · simp only [runCalls, if_pos ha] at h
      rcases List.mem_cons.mp h with h1 | h1
      · exact h1 ▸ List.mem_cons_self a rest
      · exact List.mem_cons_of_mem a (ih c h1)
    · simp only [runCalls, if_neg ha] at h
      simp only [List.mem_singleton] at h
      exact h ▸ List.mem_cons_self a rest

theorem runCalls_all_ok (ok : KafkaTopicCall → Bool) :
    ∀ cs : List KafkaTopicCall, (runCalls ok cs).2 = true →
      (runCalls ok cs).1 = cs ∧ ∀ c ∈ cs, ok c = true := by
  intro cs
  induction cs with
  | nil => intro _; exact ⟨rfl, by simp⟩
  | cons a rest ih =>
    intro h
    by_cases ha : ok a = true
    · simp only [runCalls, if_pos ha] at h ⊢
      obtain ⟨h1, h2⟩ := ih h
      refine ⟨by rw [h1], ?_⟩
      intro c hc
      rcases List.mem_cons.mp hc with h3 | h3
      · exact h3 ▸ ha
      · exact h2 c h3
    · simp only [runCalls, if_neg ha] at h
      simp at h

/-- C8: the calls of the topic-collection reconciliation decompose as a
delete segment, then an add segment, then an update segment (each segment
pure in its phase); any add call implies every delete call was issued and
completed successfully, and any update call implies both earlier phases
ran to successful completion. Each individual call is awaited before the
next is issued (`runCalls` threads the per-call outcome sequentially). -/
theorem updateKafkaClusterTopicsTrace_phases (ok : KafkaTopicCall → Bool)
    (toDelete : List String) (toAdd : List KTopicSpec)
    (modified : List (String × List String)) :
    ∃ dTr aTr uTr,
      (updateKafkaClusterTopicsTrace ok toDelete toAdd modified).1 = dTr ++ aTr ++ uTr ∧
      (∀ c ∈ dTr, phaseRank c = 0) ∧
      (∀ c ∈ aTr, phaseRank c = 1) ∧
      (∀ c ∈ uTr, phaseRank c = 2) ∧
      (aTr ≠ [] → dTr = toDelete.map KafkaTopicCall.delTopic ∧ ∀ c ∈ dTr, ok c = true) ∧
      (uTr ≠ [] →
        (dTr = toDelete.map KafkaTopicCall.delTopic ∧ ∀ c ∈ dTr, ok c = true) ∧
        (aTr = toAdd.map (fun s => KafkaTopicCall.createTopic s.name) ∧
          ∀ c ∈ aTr, ok c = true)) := by
  have hdelM : ∀ c ∈ toDelete.map KafkaTopicCall.delTopic, phaseRank c = 0 := by
    intro c hc
    obtain ⟨x, _, hx⟩ := List.mem_map.mp hc
    rw [← hx]
    rfl
  have haddM : ∀ c ∈ toAdd.map (fun s => KafkaTopicCall.createTopic s.name),
      phaseRank c = 1 := by
    intro c hc
    obtain ⟨x, _, hx⟩ := List.mem_map.mp hc
    rw [← hx]
    rfl
  have hdel : ∀ c ∈ (runCalls ok (toDelete.map KafkaTopicCall.delTopic)).1,
      phaseRank c = 0 :=
    fun c hc => hdelM c (runCalls_mem ok _ c hc)
  have hadd : ∀ c ∈ (runCalls ok (toAdd.map (fun s => KafkaTopicCall.createTopic s.name))).1,
      phaseRank c = 1 :=
    fun c hc => haddM c (runCalls_mem ok _ c hc)
  have hupd : ∀ c ∈ (runCalls ok ((modified.filter (fun m => !m.2.isEmpty)).map
      (fun m => KafkaTopicCall.updTopic m.1))).1, phaseRank c = 2 := by
    intro c hc
    obtain ⟨x, _, hx⟩ := List.mem_map.mp (runCalls_mem ok _ c hc)
    rw [← hx]
    rfl
  unfold updateKafkaClusterTopicsTrace
  by_cases hd : (runCalls ok (toDelete.map KafkaTopicCall.delTopic)).2 = true
  · obtain ⟨hd1, hd2⟩ := runCalls_all_ok ok _ hd
    by_cases hA : (runCalls ok (toAdd.map (fun s => KafkaTopicCall.createTopic s.name))).2 = true
    · obtain ⟨ha1, ha2⟩ := runCalls_all_ok ok _ hA
      refine ⟨toDelete.map KafkaTopicCall.delTopic,
        toAdd.map (fun s => KafkaTopicCall.createTopic s.name),
        (runCalls ok ((modified.filter (fun m => !m.2.isEmpty)).map
          (fun m => KafkaTopicCall.updTopic m.1))).1, ?_, hdelM, haddM, hupd, ?_, ?_⟩
      · simp [hd, hA, hd1, ha1]
      · intro _
        exact ⟨rfl, hd2⟩
      · intro _
        exact ⟨⟨rfl, hd2⟩, rfl, ha2⟩
    · refine ⟨toDelete.map KafkaTopicCall.delTopic,
        (runCalls ok (toAdd.map (fun s => KafkaTopicCall.createTopic s.name))).1,
        [], ?_, hdelM, hadd, by simp, ?_, by simp⟩
      · simp [hd, hA, hd1]
      · intro _
        exact ⟨rfl, hd2⟩
  · refine ⟨(runCalls ok (toDelete.map KafkaTopicCall.delTopic)).1, [], [],
      ?_, hdel, by simp, by simp, by simp, by simp⟩
    simp [hd]
